import Mathlib

/-!
Verification of the measurement methodology of `src/sort_benchmark.cpp`
(boost_hub_sort_benchmarks): the trimmed-mean timing primitive `measure`,
the pause/resume clock accounting, the deterministic dataset builder
`make`, the winner-reporting routine `print_winner`, and the driver's
size/erasure-rate grid with its size-limit guard.

Modelling conventions: C++ `double` arithmetic is embedded as exact
rational arithmetic (`ℚ`); machine integers are `ℕ`/`ℤ` with explicit
reductions modulo `2 ^ 64` or `2 ^ 32` where the source casts; durations
are rationals measured in milliseconds; wall-clock time points are
rationals.  Loops whose exit depends on data are embedded with explicit
fuel, and each theorem that uses them proves the fuel suffices.
-/

namespace SortBench

/-! ### Timing primitive `measure` (sort_benchmark.cpp lines 16-43) -/

/-- `static const int num_trials = 10;` -/
def num_trials : ℕ := 10

/-- `static const milliseconds min_time_per_trial(200);` in milliseconds. -/
def min_time_per_trial : ℚ := 200

/-- The aggregation step of `measure`: sort the trial values ascending
(`std::sort`), sum the range `[begin() + 2, end() - 2)` and divide by
`trials.size() - 4` (lines 40-42). -/
def measure_estimate (trials : List ℚ) : ℚ :=
  let s := trials.mergeSort
  ((s.drop 2).take (s.length - 4)).sum / ((trials.length : ℚ) - 4)

end SortBench

namespace SortBench

/-- C1: for every batch of 10 trial values, the estimate returned by
`measure` is the arithmetic mean of the 6 middle values of the
ascending-sorted batch (drop the 2 smallest and the 2 largest); for the
batch `{1,2,3,4,5,6,7,8,9,100}` the estimate is `5.5`. -/
theorem measure_estimate_trimmed_mean (l : List ℚ) (h : l.length = 10) :
    List.Sorted (· ≤ ·) l.mergeSort ∧
    l.mergeSort.Perm l ∧
    measure_estimate l = ((l.mergeSort.drop 2).take 6).sum / 6 ∧
    measure_estimate [1, 2, 3, 4, 5, 6, 7, 8, 9, 100] = 11 / 2 := by
  refine ⟨List.sorted_mergeSort' _, List.mergeSort_perm _ _, ?_, ?_⟩
  · simp [measure_estimate, List.length_mergeSort, h]
    norm_num
  · have hs : ([1, 2, 3, 4, 5, 6, 7, 8, 9, 100] : List ℚ).mergeSort
        = [1, 2, 3, 4, 5, 6, 7, 8, 9, 100] :=
      List.mergeSort_eq_self
        (by decide : List.Sorted (· ≤ ·) ([1, 2, 3, 4, 5, 6, 7, 8, 9, 100] : List ℚ))
    simp [measure_estimate, hs]
    norm_num

/-- Witness for C1 at the concrete batch of the claim. -/
theorem measure_estimate_trimmed_mean_witness :
    measure_estimate [1, 2, 3, 4, 5, 6, 7, 8, 9, 100] = 11 / 2 :=
  (measure_estimate_trimmed_mean [1, 2, 3, 4, 5, 6, 7, 8, 9, 100]
    (by decide)).2.2.2

end SortBench

namespace SortBench

/-- Fuel-based embedding of the do-while loop of `measure` (lines 31-35)
for an operation with fixed per-call cost `c` milliseconds: after the
body has run `runs` times the elapsed wall time since `measure_start`
is `runs * c`, and the loop exits as soon as
`t2 - measure_start < min_time_per_trial` fails. -/
def trial_loop (c : ℚ) : ℕ → ℕ → ℕ
  | 0, runs => runs
  | fuel + 1, runs =>
    if ((runs + 1 : ℕ) : ℚ) * c < min_time_per_trial then
      trial_loop c fuel (runs + 1)
    else runs + 1

/-- Repetition count of one trial of `measure` on an operation with fixed
per-call cost `c > 0`; the fuel `⌈min_time_per_trial / c⌉ + 1` is proved
sufficient in `trial_loop_exits`. -/
def trial_runs (c : ℚ) : ℕ :=
  trial_loop c ((⌈min_time_per_trial / c⌉).toNat + 1) 0

/-- The batch of trial values produced by `measure` (lines 25-38) for an
operation with fixed per-call cost `c`: `num_trials` slots, each
recording `elapsed / runs` where `elapsed = runs * c`. -/
def measure_trials (c : ℚ) : List ℚ :=
  (List.range num_trials).map fun _ =>
    ((trial_runs c : ℚ) * c) / (trial_runs c : ℚ)

/-- What the do-while loop computes: first repetition count past `runs`
whose elapsed time meets the floor, provided the fuel reaches it. -/
theorem trial_loop_exits (c : ℚ) (fuel : ℕ) :
    ∀ runs : ℕ,
      (∃ k : ℕ, runs < k ∧ k ≤ runs + fuel ∧
        min_time_per_trial ≤ (k : ℚ) * c) →
      runs < trial_loop c fuel runs ∧
      min_time_per_trial ≤ ((trial_loop c fuel runs : ℕ) : ℚ) * c ∧
      ∀ j : ℕ, runs < j → j < trial_loop c fuel runs →
        (j : ℚ) * c < min_time_per_trial := by
  induction fuel with
  | zero =>
    rintro runs ⟨k, hk1, hk2, -⟩
    omega
  | succ fuel ih =>
    rintro runs ⟨k, hk1, hk2, hk3⟩
    rw [trial_loop]
    by_cases hlt : ((runs + 1 : ℕ) : ℚ) * c < min_time_per_trial
    · rw [if_pos hlt]
      have hkne : k ≠ runs + 1 := by
        rintro rfl
        exact absurd hk3 (not_le.mpr hlt)
      have hrec := ih (runs + 1) ⟨k, by omega, by omega, hk3⟩
      refine ⟨by omega, hrec.2.1, ?_⟩
      intro j hj1 hj2
      rcases Nat.lt_or_ge (runs + 1) j with hj | hj
      · exact hrec.2.2 j hj hj2
      · have : j = runs + 1 := by omega
        rw [this]
        exact hlt
    · rw [if_neg hlt]
      exact ⟨by omega, not_lt.mp hlt, by omega⟩

end SortBench

namespace SortBench

/-- C2: `measure` performs exactly 10 trials; each trial's value is the
elapsed time divided by the repetition count, and for an operation with
fixed per-call cost `c > 0` the repetition count is the smallest integer
`r` with `r * c ≥ 200` ms. -/
theorem measure_fixed_cost (c : ℚ) (hc : 0 < c) :
    (measure_trials c).length = num_trials ∧ num_trials = 10 ∧
    (∀ t ∈ measure_trials c,
      t = ((trial_runs c : ℚ) * c) / (trial_runs c : ℚ)) ∧
    min_time_per_trial ≤ (trial_runs c : ℚ) * c ∧
    (∀ r : ℕ, min_time_per_trial ≤ (r : ℚ) * c → trial_runs c ≤ r) := by
  have hcne : c ≠ 0 := ne_of_gt hc
  have hmpos : (0 : ℚ) < min_time_per_trial := by norm_num [min_time_per_trial]
  have hk0 : (0 : ℤ) < ⌈min_time_per_trial / c⌉ := by
    rw [Int.lt_ceil]
    push_cast
    exact div_pos hmpos hc
  set k : ℕ := (⌈min_time_per_trial / c⌉).toNat with hkdef
  have hkc : ((k : ℤ) : ℚ) = ((⌈min_time_per_trial / c⌉ : ℤ) : ℚ) := by
    rw [hkdef, Int.toNat_of_nonneg (le_of_lt hk0)]
  have hkmeets : min_time_per_trial ≤ (k : ℚ) * c := by
    have h1 : min_time_per_trial / c ≤ (k : ℚ) := by
      rw [show ((k : ℕ) : ℚ) = ((k : ℤ) : ℚ) by push_cast; ring, hkc]
      exact Int.le_ceil _
    calc min_time_per_trial = (min_time_per_trial / c) * c := by
          field_simp
      _ ≤ (k : ℚ) * c := by
          exact mul_le_mul_of_nonneg_right h1 (le_of_lt hc)
  have hkpos : 0 < k := by
    rw [hkdef]
    omega
  have hspec := trial_loop_exits c (k + 1) 0 ⟨k, hkpos, by omega, hkmeets⟩
  rw [show trial_loop c (k + 1) 0 = trial_runs c by rw [trial_runs]] at hspec
  refine ⟨by simp [measure_trials, num_trials], rfl, ?_, hspec.2.1, ?_⟩
  · intro t ht
    simp [measure_trials] at ht
    exact ht.2
  · intro r hr
    by_contra hcon
    push_neg at hcon
    have hrpos : 0 < r := by
      rcases Nat.eq_zero_or_pos r with h0 | h0
      · rw [h0] at hr
        norm_num [min_time_per_trial] at hr
      · exact h0
    exact absurd hr (not_le.mpr (hspec.2.2 r hrpos hcon))

/-- Witness for C2 at per-call cost 50 ms. -/
theorem measure_fixed_cost_witness :
    (0 : ℚ) < 50 ∧
    ((measure_trials 50).length = num_trials ∧ num_trials = 10 ∧
      (∀ t ∈ measure_trials 50,
        t = ((trial_runs 50 : ℚ) * 50) / (trial_runs 50 : ℚ)) ∧
      min_time_per_trial ≤ (trial_runs 50 : ℚ) * 50 ∧
      (∀ r : ℕ, min_time_per_trial ≤ (r : ℚ) * 50 → trial_runs 50 ≤ r)) :=
  ⟨by norm_num, measure_fixed_cost 50 (by norm_num)⟩

end SortBench

namespace SortBench

/-- The two global clock time points of sort_benchmark.cpp line 14:
`measure_start` and `measure_pause`, as rational wall-clock instants. -/
structure ClockState where
  measure_start : ℚ
  measure_pause : ℚ

/-- `pause_timing` (lines 45-48): records the current time in
`measure_pause`. -/
def pause_timing (now : ℚ) (s : ClockState) : ClockState :=
  { s with measure_pause := now }

/-- `resume_timing` (lines 50-53): `measure_start += now - measure_pause`. -/
def resume_timing (now : ℚ) (s : ClockState) : ClockState :=
  { s with measure_start := s.measure_start + (now - s.measure_pause) }

/-- One repetition of a measured operation of the driver's shape
(lines 153-159): at wall time `t` it calls `pause_timing`, spends an inner
span of length `D` (dataset construction), calls `resume_timing`, then
performs the measured work costing `c`.  Returns the new wall time and
clock state. -/
def op_rep (D c : ℚ) : ℚ × ClockState → ℚ × ClockState :=
  fun ts =>
    let s1 := pause_timing ts.1 ts.2
    let s2 := resume_timing (ts.1 + D) s1
    (ts.1 + D + c, s2)

/-- Elapsed time accounted to the trial after `r` repetitions: current
wall time minus `measure_start`, starting from a trial whose
`measure_start` was reset to the wall time `t0` (line 30). -/
def trial_elapsed (D c t0 p0 : ℚ) (r : ℕ) : ℚ :=
  let tp := (op_rep D c)^[r] (t0, ⟨t0, p0⟩)
  tp.1 - tp.2.measure_start

theorem op_rep_iterate (D c t0 p0 : ℚ) (r : ℕ) :
    ((op_rep D c)^[r] (t0, ⟨t0, p0⟩)).1 = t0 + r * (D + c) ∧
    ((op_rep D c)^[r] (t0, ⟨t0, p0⟩)).2.measure_start = t0 + r * D := by
  induction r with
  | zero => simp
  | succ r ih =>
    rw [Function.iterate_succ_apply']
    constructor
    · show ((op_rep D c)^[r] (t0, ⟨t0, p0⟩)).1 + D + c = _
      rw [ih.1]
      push_cast
      ring
    · show ((op_rep D c)^[r] (t0, ⟨t0, p0⟩)).2.measure_start
          + (((op_rep D c)^[r] (t0, ⟨t0, p0⟩)).1 + D
            - ((op_rep D c)^[r] (t0, ⟨t0, p0⟩)).1) = _
      rw [ih.2]
      push_cast
      ring

end SortBench

namespace SortBench

/-- C3: `resume_timing` advances `measure_start` forward by exactly the
duration elapsed since the preceding `pause_timing`; consequently, for a
trial whose operation performs one balanced pause/resume pair around an
inner span of duration `D` followed by measured work `c`, the accounted
elapsed time after `r` repetitions is `r * c` — the paused spans are
excluded and the accounting is independent of `D`. -/
theorem resume_timing_excludes_pause (t d : ℚ) (s : ClockState)
    (D E c t0 p0 : ℚ) (r : ℕ) :
    (resume_timing (t + d) (pause_timing t s)).measure_start
        = s.measure_start + d ∧
    trial_elapsed D c t0 p0 r = r * c ∧
    trial_elapsed D c t0 p0 r = trial_elapsed E c t0 p0 r := by
  have key : ∀ X : ℚ, trial_elapsed X c t0 p0 r = r * c := by
    intro X
    have h := op_rep_iterate X c t0 p0 r
    rw [trial_elapsed]
    rw [h.1, h.2]
    ring
  refine ⟨?_, key D, by rw [key D, key E]⟩
  simp [resume_timing, pause_timing]

end SortBench

namespace SortBench

/-! ### Dataset builder `make` (sort_benchmark.cpp lines 93-107) -/

/-- Modelled from the spec (§4.1): the PRNG is `boost::detail::splitmix64`,
whose header is not among this repository's sources; the spec requires only
a reproducible, statistically well-mixed 64-bit stream started from a fixed
internal seed with no external seeding.  We embed the standard splitmix64
state-update and output-mixing function on naturals reduced mod `2 ^ 64`;
the result is the new state paired with the output. -/
def splitmix64_next (x : ℕ) : ℕ × ℕ :=
  let x' := (x + 0x9e3779b97f4a7c15) % 2 ^ 64
  let z1 := ((x' ^^^ (x' >>> 30)) * 0xbf58476d1ce4e5b9) % 2 ^ 64
  let z2 := ((z1 ^^^ (z1 >>> 27)) * 0x94d049bb133111eb) % 2 ^ 64
  (x', z2 ^^^ (z2 >>> 31))

/-- Modelled from the spec (§4.1): the fixed internal seed of the
default-constructed `boost::detail::splitmix64 rng;` (line 101). -/
def splitmix64_seed : ℕ := 0

/-- Draw `k` successive outputs from state `st`; returns the outputs in
order together with the final state. -/
def splitmix_run : ℕ → ℕ → List ℕ × ℕ
  | 0, st => ([], st)
  | k + 1, st =>
    let rest := splitmix_run k (splitmix64_next st).1
    ((splitmix64_next st).2 :: rest.1, rest.2)

/-- The cast `(int)rng()` of line 102: two's-complement reduction of a
64-bit unsigned value to a 32-bit signed int. -/
def int_of_u64 (v : ℕ) : ℤ :=
  if v % 2 ^ 32 < 2 ^ 31 then ((v % 2 ^ 32 : ℕ) : ℤ)
  else ((v % 2 ^ 32 : ℕ) : ℤ) - 2 ^ 32

/-- Line 96: `std::size_t m = (std::size_t)((double)n / (1.0 - erasure_rate));`
— the float-to-integer cast truncates toward zero, i.e. takes the floor of
the nonnegative quotient. -/
def make_m (n : ℕ) (p : ℚ) : ℕ := (⌊(n : ℚ) / (1 - p)⌋).toNat

/-- Lines 97-98: `(std::uint64_t)(erasure_rate * (double)(std::uint64_t)(-1))`
with `(std::uint64_t)(-1) = 2 ^ 64 - 1`. -/
def erasure_cut (p : ℚ) : ℕ := (⌊p * ((2 : ℚ) ^ 64 - 1)⌋).toNat

/-- Lines 103-105: `erase_if(c, [&](const auto&){ return rng() < erasure_cut; })`
— a single pass over the container that consumes one PRNG draw per visited
element and removes the element when the draw is below the cutoff.  Returns
the surviving elements together with the final PRNG state. -/
def erase_pass (cut : ℕ) : ℕ → List ℤ → List ℤ × ℕ
  | st, [] => ([], st)
  | st, x :: xs =>
    let d := splitmix64_next st
    let rest := erase_pass cut d.1 xs
    (if d.2 < cut then rest.1 else x :: rest.1, rest.2)

/-- Lines 100-102: the container contents right after the insertion loop
`for(i < m) c.insert((int)rng());`, in insertion order. -/
def make_inserted (n : ℕ) (p : ℚ) : List ℤ :=
  ((splitmix_run (make_m n p) splitmix64_seed).1).map int_of_u64

/-- Lines 93-107: the full dataset builder `make<Container>(n, erasure_rate)`
— insert `m` generated values into a new empty container, then run the
erasure pass with the same generator. -/
def make (n : ℕ) (p : ℚ) : List ℤ :=
  (erase_pass (erasure_cut p)
    (splitmix_run (make_m n p) splitmix64_seed).2 (make_inserted n p)).1

/-- `make` as it executes inside the whole program: the only global mutable
state of sort_benchmark.cpp is the clock pair of line 14, which `make`
neither reads nor writes; its PRNG is a fresh local
`boost::detail::splitmix64` (line 101). -/
def make_in_globals (g : ClockState) (n : ℕ) (p : ℚ) : List ℤ × ClockState :=
  (make n p, g)

theorem splitmix_run_length (k st : ℕ) : (splitmix_run k st).1.length = k := by
  induction k generalizing st with
  | zero => rfl
  | succ k ih => simp [splitmix_run, ih]

theorem splitmix_run_succ (k st : ℕ) :
    splitmix_run (k + 1) st
      = ((splitmix64_next st).2 :: (splitmix_run k (splitmix64_next st).1).1,
         (splitmix_run k (splitmix64_next st).1).2) := by
  rw [splitmix_run]

theorem erase_pass_cons (cut st : ℕ) (x : ℤ) (xs : List ℤ) :
    erase_pass cut st (x :: xs)
      = (if (splitmix64_next st).2 < cut
          then (erase_pass cut (splitmix64_next st).1 xs).1
          else x :: (erase_pass cut (splitmix64_next st).1 xs).1,
         (erase_pass cut (splitmix64_next st).1 xs).2) := by
  rw [erase_pass]

theorem erase_pass_spec_aux (cut : ℕ) (l : List ℤ) : ∀ st : ℕ,
    (erase_pass cut st l).2 = (splitmix_run l.length st).2 ∧
    (erase_pass cut st l).1
      = ((l.zip (splitmix_run l.length st).1).filter
          (fun xd => cut ≤ xd.2)).map Prod.fst := by
  induction l with
  | nil => exact fun st => ⟨rfl, rfl⟩
  | cons x xs ih =>
    intro st
    have hrec := ih (splitmix64_next st).1
    rw [erase_pass_cons, List.length_cons, splitmix_run_succ]
    refine ⟨hrec.1, ?_⟩
    rw [List.zip_cons_cons, List.filter_cons]
    by_cases h : (splitmix64_next st).2 < cut
    · rw [if_pos h]
      have hcond : ¬ ((fun xd : ℤ × ℕ => decide (cut ≤ xd.2))
          (x, (splitmix64_next st).2) = true) := by
        simp [Nat.not_le.mpr h]
      rw [if_neg hcond]
      exact hrec.2
    · rw [if_neg h]
      have hcond : (fun xd : ℤ × ℕ => decide (cut ≤ xd.2))
          (x, (splitmix64_next st).2) = true := by
        simp [Nat.le_of_not_lt h]
      rw [if_pos hcond, List.map_cons]
      rw [hrec.2]

theorem erase_pass_cut_zero (l : List ℤ) : ∀ st : ℕ,
    (erase_pass 0 st l).1 = l := by
  induction l with
  | nil => exact fun st => rfl
  | cons x xs ih =>
    intro st
    rw [erase_pass_cons]
    simp [ih]

end SortBench

namespace SortBench

/-- C4 counterexample: at `n = 1000`, `p = 3/10` the builder inserts
`⌊10000/7⌋ = 1428` values, while `round(10000/7) = 1429`: the insertion
count is not `round(n / (1 − p))`. -/
theorem make_inserted_count_not_round :
    ¬ ((make_inserted 1000 (3 / 10)).length
        = (round ((1000 : ℚ) / (1 - 3 / 10))).toNat) := by
  have h1 : (make_inserted 1000 (3 / 10)).length = make_m 1000 (3 / 10) := by
    simp [make_inserted, splitmix_run_length]
  have h2 : make_m 1000 (3 / 10) = 1428 := by
    have hf : ⌊((1000 : ℕ) : ℚ) / (1 - 3 / 10)⌋ = 1428 := by
      rw [Int.floor_eq_iff]
      constructor <;> norm_num
    rw [make_m, hf]
    rfl
  have h3 : round ((1000 : ℚ) / (1 - 3 / 10)) = 1429 := by
    rw [round_eq]
    rw [Int.floor_eq_iff]
    constructor <;> norm_num
  rw [h1, h2, h3]
  decide

/-- C4 (amended): for `0 ≤ p < 1` the builder inserts exactly
`m = ⌊n / (1 − p)⌋` (truncation of the quotient, not rounding) freshly
generated pseudo-random values, each the 32-bit-int cast of a PRNG draw,
into a new empty container before the erasure pass. -/
theorem make_inserted_count (n : ℕ) (p : ℚ) (h0 : 0 ≤ p) (h1 : p < 1) :
    (make_inserted n p).length = (⌊(n : ℚ) / (1 - p)⌋).toNat ∧
    ∀ i : ℕ, (make_inserted n p).get? i
      = (((splitmix_run (make_m n p) splitmix64_seed).1).get? i).map
          int_of_u64 := by
  constructor
  · simp [make_inserted, splitmix_run_length, make_m]
  · intro i
    simp [make_inserted, List.get?_map]

/-- Witness for C4's amended theorem at `n = 1000`, `p = 3/10`. -/
theorem make_inserted_count_witness :
    (0 : ℚ) ≤ 3 / 10 ∧ (3 / 10 : ℚ) < 1 ∧
    ((make_inserted 1000 (3 / 10)).length
        = (⌊(1000 : ℚ) / (1 - 3 / 10)⌋).toNat ∧
      ∀ i : ℕ, (make_inserted 1000 (3 / 10)).get? i
        = (((splitmix_run (make_m 1000 (3 / 10)) splitmix64_seed).1).get? i).map
            int_of_u64) :=
  ⟨by norm_num, by norm_num,
    make_inserted_count 1000 (3 / 10) (by norm_num) (by norm_num)⟩

/-- C5: the erasure pass consumes exactly one fresh PRNG draw per visited
element (the final generator state is the state after `l.length` further
draws), an element is kept iff its draw is not strictly below the cutoff
(removed iff strictly below), and the cutoff is
`⌊p * (2^64 − 1)⌋` — `erasureRate` scaled into the generator's range. -/
theorem erase_pass_one_draw_per_element (p : ℚ) (st : ℕ) (l : List ℤ) :
    (erase_pass (erasure_cut p) st l).2 = (splitmix_run l.length st).2 ∧
    (erase_pass (erasure_cut p) st l).1
      = ((l.zip (splitmix_run l.length st).1).filter
          (fun xd => erasure_cut p ≤ xd.2)).map Prod.fst ∧
    erasure_cut p = (⌊p * ((2 : ℚ) ^ 64 - 1)⌋).toNat :=
  ⟨(erase_pass_spec_aux (erasure_cut p) l st).1,
   (erase_pass_spec_aux (erasure_cut p) l st).2, rfl⟩

/-- C6: `make` touches no global state and restarts an identical-seed PRNG
stream on every invocation: its result is independent of the ambient
global clock state, it leaves that state unchanged, and a second
invocation with the same `(n, p)` run right after the first produces the
identical container. -/
theorem make_reproducible (g g' : ClockState) (n : ℕ) (p : ℚ) :
    (make_in_globals g n p).1 = (make_in_globals g' n p).1 ∧
    (make_in_globals g n p).2 = g ∧
    (make_in_globals ((make_in_globals g n p).2) n p).1
      = (make_in_globals g n p).1 :=
  ⟨rfl, rfl, rfl⟩

/-- C10: at erasure rate 0 the insertion count is exactly `n`, the cutoff
is 0, no draw (being unsigned) is strictly below it, so the erasure pass
removes nothing and the built container holds exactly `n` elements. -/
theorem make_rate_zero (n : ℕ) :
    make_m n 0 = n ∧ erasure_cut 0 = 0 ∧ make n 0 = make_inserted n 0 ∧
    (make n 0).length = n := by
  have h1 : make_m n 0 = n := by simp [make_m]
  have h2 : erasure_cut 0 = 0 := by simp [erasure_cut]
  have h3 : make n 0 = make_inserted n 0 := by
    rw [make, h2, erase_pass_cut_zero]
  refine ⟨h1, h2, h3, ?_⟩
  rw [h3, make_inserted]
  simp [splitmix_run_length, h1]

end SortBench

namespace SortBench

/-! ### Reporting routine `print_winner` (sort_benchmark.cpp lines 109-122) -/

/-- `std::numeric_limits<double>::max()`, exactly. -/
def dbl_max : ℚ := 2 ^ 1024 - 2 ^ 971

/-- The scan of `std::min_element` (line 111): carry the best value seen
and its (first) index; update only on strict decrease. -/
def min_elem_aux : ℕ → ℚ → ℕ → List ℚ → ℕ × ℚ
  | best, bv, _, [] => (best, bv)
  | best, bv, i, x :: xs =>
    if x < bv then min_elem_aux i x (i + 1) xs
    else min_elem_aux best bv (i + 1) xs

/-- `it_min = std::min_element(il.begin(), il.end())` as the pair
(index of the first minimum, its value); junk on the empty list, on which
`print_winner` is never called. -/
def min_element_pos : List ℚ → ℕ × ℚ
  | [] => (0, dbl_max)
  | x :: xs => min_elem_aux 0 x 1 xs

/-- The `next_min` loop of lines 112-116: fold `min` over every position
other than `it_min`'s, starting from `std::numeric_limits<double>::max()`. -/
def next_min_aux (k : ℕ) : ℕ → ℚ → List ℚ → ℚ
  | _, acc, [] => acc
  | i, acc, x :: xs =>
    if i = k then next_min_aux k (i + 1) acc xs
    else next_min_aux k (i + 1) (min acc x) xs

/-- The values printed by `print_winner` (lines 117-121): the 1-based
winner index, the runner-up ratio `next_min / *it_min`, and the reference
ratio `th / *it_min`. -/
def print_winner (th : ℚ) (il : List ℚ) : ℕ × ℚ × ℚ :=
  let m := min_element_pos il
  let nm := next_min_aux m.1 0 dbl_max il
  (m.1 + 1, nm / m.2, th / m.2)

theorem min_elem_aux_spec (xs : List ℚ) : ∀ (best i : ℕ) (bv : ℚ),
    (min_elem_aux best bv i xs).2 ≤ bv ∧
    (∀ y ∈ xs, (min_elem_aux best bv i xs).2 ≤ y) ∧
    (((min_elem_aux best bv i xs).1 = best
        ∧ (min_elem_aux best bv i xs).2 = bv) ∨
      (∃ j, j < xs.length ∧ (min_elem_aux best bv i xs).1 = i + j ∧
        xs.get? j = some (min_elem_aux best bv i xs).2 ∧
        (min_elem_aux best bv i xs).2 < bv ∧
        ∀ t, t < j → ∀ y, xs.get? t = some y
          → (min_elem_aux best bv i xs).2 < y)) := by
  induction xs with
  | nil =>
    intro best i bv
    exact ⟨le_refl _, by simp, Or.inl ⟨rfl, rfl⟩⟩
  | cons x rest ih =>
    intro best i bv
    by_cases h : x < bv
    · rw [show min_elem_aux best bv i (x :: rest)
          = min_elem_aux i x (i + 1) rest by rw [min_elem_aux, if_pos h]]
      obtain ⟨h1, h2, h3⟩ := ih i (i + 1) x
      refine ⟨le_of_lt (lt_of_le_of_lt h1 h), ?_, ?_⟩
      · intro y hy
        rcases List.mem_cons.mp hy with rfl | hy'
        · exact h1
        · exact h2 y hy'
      · rcases h3 with ⟨ha, hb⟩ | ⟨j, hj, ha, hb, hc, hd⟩
        · refine Or.inr ⟨0, by simp, by omega, ?_, by rw [hb]; exact h, ?_⟩
          · simp [hb]
          · intro t ht
            omega
        · refine Or.inr ⟨j + 1, by simpa using hj, by omega, by simpa using hb,
            lt_trans hc h, ?_⟩
          intro t ht y hy
          rcases t with _ | t'
          · simp at hy
            rw [← hy]
            exact hc
          · exact hd t' (by omega) y (by simpa using hy)
    · rw [show min_elem_aux best bv i (x :: rest)
          = min_elem_aux best bv (i + 1) rest by rw [min_elem_aux, if_neg h]]
      obtain ⟨h1, h2, h3⟩ := ih best (i + 1) bv
      refine ⟨h1, ?_, ?_⟩
      · intro y hy
        rcases List.mem_cons.mp hy with rfl | hy'
        · exact le_trans h1 (not_lt.mp h)
        · exact h2 y hy'
      · rcases h3 with ⟨ha, hb⟩ | ⟨j, hj, ha, hb, hc, hd⟩
        · exact Or.inl ⟨ha, hb⟩
        · refine Or.inr ⟨j + 1, by simpa using hj, by omega, by simpa using hb,
            hc, ?_⟩
          intro t ht y hy
          rcases t with _ | t'
          · simp at hy
            rw [← hy]
            exact lt_of_lt_of_le hc (not_lt.mp h)
          · exact hd t' (by omega) y (by simpa using hy)

theorem min_element_pos_spec (l : List ℚ) (hl : l ≠ []) :
    l.get? (min_element_pos l).1 = some (min_element_pos l).2 ∧
    (∀ y ∈ l, (min_element_pos l).2 ≤ y) ∧
    ∀ t, t < (min_element_pos l).1 → ∀ y, l.get? t = some y
      → (min_element_pos l).2 < y := by
  rcases l with _ | ⟨x, xs⟩
  · exact absurd rfl hl
  · obtain ⟨h1, h2, h3⟩ := min_elem_aux_spec xs 0 1 x
    rw [show min_element_pos (x :: xs) = min_elem_aux 0 x 1 xs from rfl]
    rcases h3 with ⟨ha, hb⟩ | ⟨j, hj, ha, hb, hc, hd⟩
    · refine ⟨?_, ?_, ?_⟩
      · simp [ha, hb]
      · intro y hy
        rcases List.mem_cons.mp hy with rfl | hy'
        · exact le_of_eq hb
        · exact h2 y hy'
      · intro t ht
        omega
    · refine ⟨?_, ?_, ?_⟩
      · rw [ha, add_comm 1 j]
        simpa using hb
      · intro y hy
        rcases List.mem_cons.mp hy with rfl | hy'
        · exact le_of_lt hc
        · exact h2 y hy'
      · intro t ht y hy
        rcases t with _ | t'
        · simp at hy
          rw [← hy]
          exact hc
        · refine hd t' (by omega) y (by simpa using hy)

theorem next_min_aux_eq (xs : List ℚ) : ∀ (k i : ℕ) (acc : ℚ),
    next_min_aux k i acc xs
      = (if k < i then xs else xs.eraseIdx (k - i)).foldl min acc := by
  induction xs with
  | nil =>
    intro k i acc
    rcases Nat.lt_or_ge k i with h | h <;> simp [next_min_aux]
  | cons x rest ih =>
    intro k i acc
    by_cases h : i = k
    · rw [show next_min_aux k i acc (x :: rest)
          = next_min_aux k (i + 1) acc rest by rw [next_min_aux, if_pos h]]
      rw [ih k (i + 1) acc, if_pos (by omega), if_neg (by omega),
        show k - i = 0 by omega]
      rfl
    · rw [show next_min_aux k i acc (x :: rest)
          = next_min_aux k (i + 1) (min acc x) rest by
            rw [next_min_aux, if_neg h]]
      rw [ih k (i + 1) (min acc x)]
      rcases Nat.lt_or_ge k i with hk | hk
      · rw [if_pos (by omega), if_pos hk]
        rfl
      · have hki : i < k := by omega
        rw [if_neg (by omega), if_neg (by omega),
          show k - i = (k - (i + 1)) + 1 by omega]
        rfl

theorem foldl_min_le (l : List ℚ) : ∀ a : ℚ,
    l.foldl min a ≤ a ∧ ∀ y ∈ l, l.foldl min a ≤ y := by
  induction l with
  | nil => exact fun a => ⟨le_refl a, by simp⟩
  | cons x rest ih =>
    intro a
    obtain ⟨h1, h2⟩ := ih (min a x)
    refine ⟨le_trans h1 (min_le_left a x), ?_⟩
    intro y hy
    rcases List.mem_cons.mp hy with rfl | hy'
    · exact le_trans h1 (min_le_right a y)
    · exact h2 y hy'

theorem foldl_min_mem (l : List ℚ) : ∀ a : ℚ,
    l.foldl min a = a ∨ l.foldl min a ∈ l := by
  induction l with
  | nil => exact fun a => Or.inl rfl
  | cons x rest ih =>
    intro a
    rcases ih (min a x) with h | h
    · rcases min_cases a x with ⟨hm, -⟩ | ⟨hm, -⟩
      · exact Or.inl (by rw [List.foldl_cons, h, hm])
      · exact Or.inr (by rw [List.foldl_cons, h, hm]; exact List.mem_cons_self x rest)
    · exact Or.inr (List.mem_cons_of_mem x h)

end SortBench

namespace SortBench

/-- C7: `print_winner` reports the 1-based index of the first occurrence
of the minimum competitor time (earlier positions hold strictly larger
values, so ties resolve to the earliest listed), the ratio of the minimum
over the remaining positions to the winner's time, and the ratio of the
reference time to the winner's time; on times `{5, 3, 3, 7}` with
reference `10` it yields `(2, 1, 10/3)`. -/
theorem print_winner_spec (th : ℚ) (l : List ℚ) (hl : 2 ≤ l.length)
    (hmax : ∀ y ∈ l, y ≤ dbl_max) :
    l.get? (min_element_pos l).1 = some (min_element_pos l).2 ∧
    (∀ y ∈ l, (min_element_pos l).2 ≤ y) ∧
    (∀ t, t < (min_element_pos l).1 → ∀ y, l.get? t = some y
      → (min_element_pos l).2 < y) ∧
    next_min_aux (min_element_pos l).1 0 dbl_max l
        ∈ l.eraseIdx (min_element_pos l).1 ∧
    (∀ y ∈ l.eraseIdx (min_element_pos l).1,
      next_min_aux (min_element_pos l).1 0 dbl_max l ≤ y) ∧
    print_winner th l
      = ((min_element_pos l).1 + 1,
         next_min_aux (min_element_pos l).1 0 dbl_max l
           / (min_element_pos l).2,
         th / (min_element_pos l).2) ∧
    print_winner 10 [5, 3, 3, 7] = (2, 1, 10 / 3) := by
  have hne : l ≠ [] := by
    intro hnil
    rw [hnil] at hl
    simp at hl
  obtain ⟨hget, hmin, hfirst⟩ := min_element_pos_spec l hne
  have hidx : (min_element_pos l).1 < l.length := by
    rcases List.get?_eq_some.mp hget with ⟨h, -⟩
    exact h
  have heq : next_min_aux (min_element_pos l).1 0 dbl_max l
      = (l.eraseIdx (min_element_pos l).1).foldl min dbl_max := by
    rw [next_min_aux_eq, if_neg (by omega), Nat.sub_zero]
  have hlen' : 0 < (l.eraseIdx (min_element_pos l).1).length := by
    have := List.length_eraseIdx_add_one hidx
    omega
  obtain ⟨y0, hy0⟩ := List.exists_mem_of_length_pos hlen'
  have hy0l : y0 ∈ l := by
    obtain ⟨i, hik, hi⟩ := List.mem_eraseIdx_iff_get?.mp hy0
    exact List.get?_mem hi
  have hmem : next_min_aux (min_element_pos l).1 0 dbl_max l
      ∈ l.eraseIdx (min_element_pos l).1 := by
    rw [heq]
    rcases foldl_min_mem (l.eraseIdx (min_element_pos l).1) dbl_max with
      hcase | hcase
    · have h1 := (foldl_min_le (l.eraseIdx (min_element_pos l).1) dbl_max).2
        y0 hy0
      have h2 : y0 ≤ dbl_max := hmax y0 hy0l
      have h3 : (l.eraseIdx (min_element_pos l).1).foldl min dbl_max = y0 :=
        le_antisymm h1 (by rw [hcase]; exact h2)
      rw [h3]
      exact hy0
    · exact hcase
  refine ⟨hget, hmin, hfirst, hmem, ?_, rfl, ?_⟩
  · intro y hy
    rw [heq]
    exact (foldl_min_le _ _).2 y hy
  · have e1 : min_element_pos [5, 3, 3, 7] = (1, 3) := by
      norm_num [min_element_pos, min_elem_aux]
    have e2 : next_min_aux 1 0 dbl_max [5, 3, 3, 7] = 3 := by
      rw [next_min_aux_eq, if_neg (by omega)]
      norm_num [List.foldl, min_def, dbl_max]
    simp only [print_winner, e1]
    norm_num [e2]

/-- Witness for C7 at times `{5, 3, 3, 7}` and reference time `10`. -/
theorem print_winner_spec_witness :
    print_winner 10 [5, 3, 3, 7] = (2, 1, 10 / 3) :=
  (print_winner_spec 10 [5, 3, 3, 7] (by norm_num)
    (by norm_num [dbl_max])).2.2.2.2.2.2

end SortBench

namespace SortBench

/-! ### Benchmark driver (sort_benchmark.cpp lines 124-217) -/

/-- Lines 126-128: the platform ceiling, selected on `sizeof(std::size_t)`
(in bytes): `800 * 1024 * 1024` when it is 4, `2048 * 1024 * 1024`
otherwise. -/
def size_limit (word_size : ℕ) : ℕ :=
  if word_size = 4 then 800 * 1024 * 1024 else 2048 * 1024 * 1024

/-- What one cell of the results table shows: the "too large" sentinel of
line 190, or a measured `print_winner` result. -/
inductive CellOut where
  | tooLarge
  | result (winner : ℕ × ℚ × ℚ)

/-- One grid cell of the driver's inner loop (lines 150-213).  The wall
clock is external to the embedding, so the value returned by the `k`-th
`measure` call of the cell is supplied by the oracle `timing`; the second
component records which `measure` calls were performed (every dataset is
built by `make` inside an operation passed to `measure`, so an empty
record means no measurement and no dataset construction).  Call 0 measures
`sort_hive`; calls 3 and 4 (hub `sort3`/`sort4`) happen only when
`sizeof(element) <= 2 * sizeof(std::size_t)` (line 199). -/
def cell (word_size elem_size : ℕ) (timing : ℕ → ℚ) (n : ℕ) (p : ℚ) :
    CellOut × List ℕ :=
  if (n : ℚ) * (elem_size : ℚ) / (1 - p) > (size_limit word_size : ℚ) then
    (CellOut.tooLarge, [])
  else if elem_size ≤ 2 * word_size then
    (CellOut.result
      (print_winner (timing 0) [timing 1, timing 2, timing 3, timing 4]),
      [0, 1, 2, 3, 4])
  else
    (CellOut.result (print_winner (timing 0) [timing 1, timing 2]), [0, 1, 2])

/-- The driver's erasure-rate loop (line 148):
`for(double erasure_rate = 0.0; erasure_rate <= 0.9; erasure_rate += 0.1)`,
embedded with fuel; 14 units cover the 11 iterations the loop performs. -/
def rates_loop : ℕ → ℚ → List ℚ
  | 0, _ => []
  | fuel + 1, x =>
    if x ≤ 9 / 10 then x :: rates_loop fuel (x + 1 / 10) else []

def grid_rates : List ℚ := rates_loop 14 0

/-- The driver's size loop (line 150): `for(std::size_t i = 3; i <= 7; ++i)`
with `n = (std::size_t)std::pow(10.0, (double)i)` (line 151). -/
def sizes_loop : ℕ → ℕ → List ℕ
  | 0, _ => []
  | fuel + 1, i => if i ≤ 7 then 10 ^ i :: sizes_loop fuel (i + 1) else []

def grid_sizes : List ℕ := sizes_loop 8 3

/-- The grid the driver visits: rates outer, sizes inner. -/
def grid_cells : List (ℚ × ℕ) :=
  grid_rates.bind fun p => grid_sizes.map fun n => (p, n)

theorem rates_loop_succ (fuel : ℕ) (x : ℚ) :
    rates_loop (fuel + 1) x
      = if x ≤ 9 / 10 then x :: rates_loop fuel (x + 1 / 10) else [] := by
  rw [rates_loop]

end SortBench

namespace SortBench

/-- C8: when the inflated pre-erasure footprint
`n * sizeof(element) / (1 − p)` exceeds the platform ceiling (800MiB with
a 4-byte `size_t`, 2GiB otherwise), the cell prints the "too large"
sentinel and performs no `measure` call — hence builds no dataset. -/
theorem size_limit_guard (word_size elem_size n : ℕ) (p : ℚ)
    (timing : ℕ → ℚ)
    (h : (n : ℚ) * (elem_size : ℚ) / (1 - p) > (size_limit word_size : ℚ)) :
    cell word_size elem_size timing n p = (CellOut.tooLarge, []) ∧
    size_limit 4 = 800 * 1024 * 1024 ∧
    ∀ w : ℕ, w ≠ 4 → size_limit w = 2048 * 1024 * 1024 := by
  refine ⟨by rw [cell, if_pos h], rfl, ?_⟩
  intro w hw
  rw [size_limit, if_neg hw]

/-- Witness for C8: 64-bit word, 256-byte elements, `n = 10^7`,
`p = 9/10`: footprint `2.56e10` bytes exceeds the 2GiB ceiling. -/
theorem size_limit_guard_witness :
    (((10 ^ 7 : ℕ) : ℚ) * ((256 : ℕ) : ℚ) / (1 - 9 / 10)
        > ((size_limit 8 : ℕ) : ℚ)) ∧
    (cell 8 256 (fun _ => 0) (10 ^ 7) (9 / 10) = (CellOut.tooLarge, []) ∧
      size_limit 4 = 800 * 1024 * 1024 ∧
      ∀ w : ℕ, w ≠ 4 → size_limit w = 2048 * 1024 * 1024) :=
  ⟨by norm_num [size_limit],
    size_limit_guard 8 256 (10 ^ 7) (9 / 10) (fun _ => 0)
      (by norm_num [size_limit])⟩

/-- C9: the driver enumerates exactly the rates `0.0, 0.1, …, 0.9` (ten
of them, the last equal to `0.9` in the exact-arithmetic embedding)
crossed with the sizes `10^3 … 10^7` — 50 grid cells. -/
theorem grid_enumeration :
    grid_rates = [0, 1 / 10, 2 / 10, 3 / 10, 4 / 10, 5 / 10, 6 / 10,
      7 / 10, 8 / 10, 9 / 10] ∧
    grid_sizes = [10 ^ 3, 10 ^ 4, 10 ^ 5, 10 ^ 6, 10 ^ 7] ∧
    grid_rates.length = 10 ∧
    grid_rates.getLast? = some (9 / 10) ∧
    grid_cells.length = 50 := by
  have hs : grid_sizes = [10 ^ 3, 10 ^ 4, 10 ^ 5, 10 ^ 6, 10 ^ 7] := by
    decide
  have hr : grid_rates = [0, 1 / 10, 2 / 10, 3 / 10, 4 / 10, 5 / 10,
      6 / 10, 7 / 10, 8 / 10, 9 / 10] := by
    norm_num [grid_rates, rates_loop_succ]
  refine ⟨hr, hs, by rw [hr]; rfl, by rw [hr]; rfl, ?_⟩
  rw [grid_cells, hr, hs]
  rfl

end SortBench
